import Mathlib

/-!
Verification of the data-preparation utilities in `utils.py` of the
EarthMapper repository.  Each Python function used by the claims is
shallowly embedded as a Lean definition, translated from the source:

* `class_weights`: per-class loss weights from label frequency;
* `patch_extractor_with_mask` / `patch_extractor`: random spatial patch
  sampling (the call to `random.sample` is modelled by an explicit
  selection list `sel` constrained by `sampleOk`, the contract of
  Python's without-replacement sampler);
* `band_resample_hsi_cube`: spectral band resampling (the transform
  matrix built by the external `BandResampler` library is passed as an
  explicit argument `m`; the library guarantees it has one row per
  target band);
* `read_hyperion_HSI_data`: calibrated cube assembly from a sorted list
  of per-band images (the file system is modelled by the sorted list of
  images the code reads);
* `train_test_split_per_class`: stratified splitting (the external
  `sklearn.train_test_split` primitive is passed as a function argument
  `sf` constrained by `splitSpec`, its partition contract).

Numpy float arithmetic on the `class_weights` path produces the IEEE
special values `inf`, `-inf` and `nan` (from `total/0`, `log 0` and
`0 * -inf`); these are modelled exactly by the `FVal` type below.
Elsewhere the claims are structural, and array values are modelled by
exact fields (`ℚ`) or generic element types.
-/

namespace EarthMapper

/-- Result of a numpy floating computation: a finite real or one of the
IEEE special values `inf`, `-inf`, `nan` that arise on the
`class_weights` code path. -/
inductive FVal where
  | finite (x : ℝ)
  | pinf
  | ninf
  | nan

/-- Predicate "this weight is at least 1" on an extended value: a finite
value at least `1`, or `+inf`; `-inf` and `nan` are not at least 1. -/
def FVal.geOne : FVal → Prop
  | FVal.finite x => 1 ≤ x
  | FVal.pinf => True
  | FVal.ninf => False
  | FVal.nan => False

/-- Embedding of `np.max(labels)` for natural-number labels (`0` on the
empty list, where numpy would raise instead; callers guard emptiness). -/
def maxLabel (labels : List ℕ) : ℕ := labels.foldr max 0

/-- Length of `np.bincount(labels, minlength)`: `max(minlength, max(labels)+1)`
for nonempty `labels`, else `minlength`. -/
def bincountLen (labels : List ℕ) (minlength : ℕ) : ℕ :=
  if labels = [] then minlength else max minlength (maxLabel labels + 1)

/-- Embedding of `np.bincount(labels, minlength=minlength)`: entry `c`
is the number of occurrences of label `c`. -/
def bincount (labels : List ℕ) (minlength : ℕ) : List ℕ :=
  (List.range (bincountLen labels minlength)).map (fun c => labels.count c)

/-- Numpy true division `a / b` of two nonnegative integers:
`0/0 = nan`, `a/0 = inf` for `a > 0`, otherwise the finite quotient. -/
noncomputable def fdiv (a b : ℕ) : FVal :=
  if b = 0 then (if a = 0 then FVal.nan else FVal.pinf) else FVal.finite ((a : ℝ) / (b : ℝ))

/-- Embedding of `class_weights[np.isinf(class_weights)] = 0`: infinite
entries are replaced by `0`, all others kept. -/
def guardInf : FVal → FVal
  | FVal.pinf => FVal.finite 0
  | FVal.ninf => FVal.finite 0
  | v => v

/-- Numpy `np.log` on an extended value: `log 0 = -inf`, `log x = nan`
for `x < 0`, `log inf = inf`, `log` of `-inf` or `nan` is `nan`. -/
noncomputable def flog : FVal → FVal
  | FVal.finite x =>
      if x = 0 then FVal.ninf else if x < 0 then FVal.nan else FVal.finite (Real.log x)
  | FVal.pinf => FVal.pinf
  | FVal.ninf => FVal.nan
  | FVal.nan => FVal.nan

/-- IEEE multiplication of the finite scalar `mu` by an extended value:
`mu * ±inf` keeps the sign rules and `0 * ±inf = nan`. -/
noncomputable def smul (mu : ℝ) : FVal → FVal
  | FVal.finite x => FVal.finite (mu * x)
  | FVal.pinf => if 0 < mu then FVal.pinf else if mu < 0 then FVal.ninf else FVal.nan
  | FVal.ninf => if 0 < mu then FVal.ninf else if mu < 0 then FVal.pinf else FVal.nan
  | FVal.nan => FVal.nan

/-- Embedding of `class_weights[class_weights < 1] = 1`: entries that
compare below `1` are raised to `1`.  `-inf < 1` holds, so `-inf`
becomes `1`; comparisons with `nan` are false, so `nan` is kept, as is
`+inf`. -/
noncomputable def clampOne : FVal → FVal
  | FVal.finite x => if x < 1 then FVal.finite 1 else FVal.finite x
  | FVal.ninf => FVal.finite 1
  | v => v

/-- Body of `class_weights` after `numClasses` has been resolved to a
number: count labels, divide the total by each count, zero the infinite
ratios, take `mu * log`, clamp below at 1. -/
noncomputable def class_weights_core (labels : List ℕ) (mu : ℝ) (numClasses : ℕ) : List FVal :=
  (bincount labels numClasses).map
    (fun c => clampOne (smul mu (flog (guardInf (fdiv (bincount labels numClasses).sum c)))))

/-- Embedding of `class_weights(labels, mu, numClasses)`.  When
`numClasses` is `None` the code computes `np.max(labels)+1`, which
raises on an empty label vector (`none` result). -/
noncomputable def class_weights (labels : List ℕ) (mu : ℝ) (numClasses : Option ℕ) :
    Option (List FVal) :=
  match numClasses with
  | some n => some (class_weights_core labels mu n)
  | none =>
      if labels = [] then none
      else some (class_weights_core labels mu (maxLabel labels + 1))

/-! ### Patch extractors

`patch_extractor_with_mask(data, mask, num_patches, patch_size)` and
`patch_extractor(data, num_patches, patch_size)`.  A cube is a spatial
grid of spectral vectors; the validity mask shares the cube's spatial
dimensions (a documented precondition of the code), so it is modelled
as a total boolean function consulted on in-range indices only.  The
random draw `sample(range(n), num_patches)` is modelled by an explicit
index list `sel`; `sampleOk n k sel` is the contract of Python's
without-replacement sampler, and the raise when `num_patches` exceeds
the candidate count is the `none` branch. -/

/-- Spectral cube: `rows × cols × bands` array of elements of `α`. -/
structure Cube (α : Type) where
  rows : ℕ
  cols : ℕ
  bands : ℕ
  val : ℕ → ℕ → ℕ → α

/-- Embedding of `np.all(mask[i:i+ps, j:j+ps])`, the all-true check of
the fully-overlapping mask sub-region at anchor `(i, j)`. -/
def allMask (mask : ℕ → ℕ → Bool) (i j ps : ℕ) : Bool :=
  (List.range ps).all (fun a => (List.range ps).all (fun b => mask (i + a) (j + b)))

/-- Embedding of the validity scan of `patch_extractor_with_mask`
followed by `np.argwhere(valid > 0)`: the row-major list of anchors
`(i, j)` with `i < rows - ps`, `j < cols - ps` whose mask footprint is
all true.  The loop bounds `range(0, sh[0]-patch_size[0])` and
`range(0, sh[1]-patch_size[1])` are exclusive of `rows - ps` and
`cols - ps`. -/
def validAnchors (mask : ℕ → ℕ → Bool) (rows cols ps : ℕ) : List (ℕ × ℕ) :=
  (List.range (rows - ps)).flatMap (fun i =>
    (List.range (cols - ps)).filterMap (fun j =>
      if allMask mask i j ps then some (i, j) else none))

/-- Embedding of `np.argwhere(valid > 0)` for `patch_extractor`, whose
`valid` array is `1` exactly on `[0, rows-ps) × [0, cols-ps)`. -/
def allAnchors (rows cols ps : ℕ) : List (ℕ × ℕ) :=
  (List.range (rows - ps)).flatMap (fun i =>
    (List.range (cols - ps)).map (fun j => (i, j)))

/-- Contract of Python's `random.sample(range(n), k)`: the drawn index
list has length `k`, no repetitions, and all entries below `n`. -/
def sampleOk (n k : ℕ) (sel : List ℕ) : Prop :=
  sel.length = k ∧ sel.Nodup ∧ ∀ x ∈ sel, x < n

/-- Embedding of `idx[np.array(sample(range(idx.shape[0]), num_patches))]`:
the anchors picked by the drawn index list. -/
def sampledAnchors (anchors : List (ℕ × ℕ)) (sel : List ℕ) : List (ℕ × ℕ) :=
  sel.map (fun k => anchors.getD k (0, 0))

/-- Embedding of `data[i:i+ps, j:j+ps]`: the contiguous spatial crop of
size `ps × ps × bands` anchored at `(i, j)`, as nested lists. -/
def crop {α : Type} (data : Cube α) (i j ps : ℕ) : List (List (List α)) :=
  (List.range ps).map (fun a =>
    (List.range ps).map (fun b =>
      (List.range data.bands).map (fun c => data.val (i + a) (j + b) c)))

/-- Embedding of `patch_extractor_with_mask(data, mask, num_patches,
patch_size)` with the random draw `sel` made explicit: compute the
valid anchors, fail (as `random.sample` raises) when fewer than
`num_patches` exist, otherwise crop the data at each sampled anchor. -/
def patch_extractor_with_mask {α : Type} (data : Cube α) (mask : ℕ → ℕ → Bool)
    (num_patches ps : ℕ) (sel : List ℕ) : Option (List (List (List (List α)))) :=
  let anchors := validAnchors mask data.rows data.cols ps
  if num_patches ≤ anchors.length then
    some ((sampledAnchors anchors sel).map (fun a => crop data a.1 a.2 ps))
  else none

/-- Embedding of `patch_extractor(data, num_patches, patch_size)` with
the random draw `sel` made explicit. -/
def patch_extractor {α : Type} (data : Cube α) (num_patches ps : ℕ) (sel : List ℕ) :
    Option (List (List (List (List α)))) :=
  let anchors := allAnchors data.rows data.cols ps
  if num_patches ≤ anchors.length then
    some ((sampledAnchors anchors sel).map (fun a => crop data a.1 a.2 ps))
  else none

/-! ### Band resampler

`band_resample_hsi_cube(data, bands1, bands2, fwhm1, fwhm2, mask)`.
The transform matrix `BandResampler(bands1, bands2, fwhm1, fwhm2).matrix`
is built by the external SpectralPython library from the two band
configurations; it enters the embedding as the explicit argument `m`
(one row per target band, one column per source band).  The code
flattens the spatial dimensions, applies the matrix to every pixel's
spectral vector (only to masked pixels in the masked branch, leaving
the zero initialisation elsewhere) and reshapes back; flattening and
reshaping over equal spatial shapes is modelled by traversing the
nested spatial structure directly.  Values are modelled in the exact
field `ℚ`; the final `out[np.isnan(out)] = 0` guard only acts on NaN
values of float arithmetic and is the identity in this exact model. -/

/-- One row of `resample.matrix.dot(data[p])`: the dot product of a
matrix row with a pixel's spectral vector. -/
def dotRow (r v : List ℚ) : ℚ := (List.zipWith (· * ·) r v).sum

/-- Application of the resampling matrix to one pixel's spectral
vector: one dot product per target band. -/
def matVec (m : List (List ℚ)) (v : List ℚ) : List ℚ := m.map (fun r => dotRow r v)

/-- Embedding of `band_resample_hsi_cube`: without a mask every pixel
vector is transformed; with a mask the output starts as
`np.zeros((pixels, len(bands2)))` and only masked pixels receive the
transformed vector. -/
def band_resample_hsi_cube (data : List (List (List ℚ))) (bands2 : List ℚ)
    (m : List (List ℚ)) (mask : Option (List (List Bool))) : List (List (List ℚ)) :=
  match mask with
  | none => data.map (fun row => row.map (fun px => matVec m px))
  | some msk =>
      List.zipWith (fun row mrow =>
        List.zipWith (fun px b =>
          if b then matVec m px else List.replicate bands2.length (0 : ℚ)) row mrow)
        data msk

/-- Shape agreement between a validity mask and a cube's spatial
dimensions, the documented precondition of the masked operations. -/
def maskDims (msk : List (List Bool)) (data : List (List (List ℚ))) : Prop :=
  msk.length = data.length ∧
    ∀ i, i < data.length → (msk.getD i []).length = (data.getD i []).length

/-! ### Hyperion cube assembly

`read_hyperion_HSI_data(fileDir)`.  The directory contents are modelled
by `files`, the lexicographically sorted list of single-band images the
code obtains from `sorted(glob(fileDir+'/*.TIF'))`; each image is a
total pixel function into `ℚ` (an exact stand-in for the raster
values).  `np.hstack([np.arange(7,57), np.arange(76,224)])` is the
index list `calIdx`. -/

/-- The hardcoded Hyperion calibrated-band index set
`{7..56} ++ {76..223}` (50 + 148 = 198 indices). -/
def calIdx : List ℕ := List.range' 7 50 ++ List.range' 76 148

/-- Embedding of `read_hyperion_HSI_data`: stack the files selected by
`calIdx` into 198 bands, then divide the first 50 bands by 40 and the
remaining 148 by 80. -/
def read_hyperion_HSI_data (files : List (ℕ → ℕ → ℚ)) : List (ℕ → ℕ → ℚ) :=
  (List.range 198).map (fun i => fun r c =>
    files.getD (calIdx.getD i 0) (fun _ _ => 0) r c / (if i < 50 then 40 else 80))

/-! ### Stratified splitter

`train_test_split_per_class(X, y, train_size, test_size)`.  The
external `sklearn.model_selection.train_test_split` primitive is the
function argument `sf`; `splitSpec` is its contract: the train and test
parts together are a permutation of the input rows and labels.  The
loop appending per-class results to initially empty arrays is the
concatenation of the per-class results in class order. -/

/-- Boolean-mask row selection `X[y == i]` (rows of `X` whose label is
`i`). -/
def selectRows {α : Type} (X : List α) (y : List ℕ) (i : ℕ) : List α :=
  (X.zip y).filterMap (fun p => if p.2 = i then some p.1 else none)

/-- Label selection `y[y == i]`. -/
def selectLabels (y : List ℕ) (i : ℕ) : List ℕ := y.filter (fun l => l == i)

/-- Type of the `train_test_split` primitive: from rows and labels of
one class to `(X_train, X_test, y_train, y_test)`. -/
def SplitFn (α : Type) : Type :=
  List α → List ℕ → List α × List α × List ℕ × List ℕ

/-- Contract of `sklearn.train_test_split`: the two label parts
together permute the input labels, and the two row parts together
permute the input rows. -/
def splitSpec {α : Type} (sf : SplitFn α) : Prop :=
  ∀ Xc yc, ((sf Xc yc).2.2.1 ++ (sf Xc yc).2.2.2).Perm yc ∧
    ((sf Xc yc).1 ++ (sf Xc yc).2.1).Perm Xc

/-- Embedding of `train_test_split_per_class(X, y)` with the sklearn
splitting primitive `sf` explicit: split each class `i` of
`range(len(np.bincount(y)))` independently and concatenate the per-class
parts in class order. -/
def train_test_split_per_class {α : Type} (X : List α) (y : List ℕ) (sf : SplitFn α) :
    List α × List α × List ℕ × List ℕ :=
  (((List.range (bincountLen y 0)).map
      (fun i => (sf (selectRows X y i) (selectLabels y i)).1)).flatten,
   ((List.range (bincountLen y 0)).map
      (fun i => (sf (selectRows X y i) (selectLabels y i)).2.1)).flatten,
   ((List.range (bincountLen y 0)).map
      (fun i => (sf (selectRows X y i) (selectLabels y i)).2.2.1)).flatten,
   ((List.range (bincountLen y 0)).map
      (fun i => (sf (selectRows X y i) (selectLabels y i)).2.2.2)).flatten)

/-! ### Helper lemmas about the patch extractors -/

theorem allMask_iff {mask : ℕ → ℕ → Bool} {i j ps : ℕ} :
    allMask mask i j ps = true ↔ ∀ a < ps, ∀ b < ps, mask (i + a) (j + b) = true := by
  simp [allMask, List.all_eq_true, List.mem_range]

theorem mem_validAnchors {mask : ℕ → ℕ → Bool} {rows cols ps : ℕ} {i j : ℕ} :
    (i, j) ∈ validAnchors mask rows cols ps ↔
      i < rows - ps ∧ j < cols - ps ∧ allMask mask i j ps = true := by
  simp only [validAnchors, List.mem_flatMap, List.mem_filterMap, List.mem_range,
    Option.ite_none_right_eq_some, Option.some.injEq, Prod.mk.injEq]
  constructor
  · rintro ⟨a, ha, b, hb, hm, rfl, rfl⟩
    exact ⟨ha, hb, hm⟩
  · rintro ⟨hi, hj, hm⟩
    exact ⟨i, hi, j, hj, hm, rfl, rfl⟩

theorem mem_allAnchors {rows cols ps : ℕ} {i j : ℕ} :
    (i, j) ∈ allAnchors rows cols ps ↔ i < rows - ps ∧ j < cols - ps := by
  simp only [allAnchors, List.mem_flatMap, List.mem_map, List.mem_range, Prod.mk.injEq]
  constructor
  · rintro ⟨a, ha, b, hb, rfl, rfl⟩
    exact ⟨ha, hb⟩
  · rintro ⟨hi, hj⟩
    exact ⟨i, hi, j, hj, rfl, rfl⟩

theorem fst_of_mem_validInner {mask : ℕ → ℕ → Bool} {cols ps i : ℕ} {x : ℕ × ℕ}
    (h : x ∈ (List.range (cols - ps)).filterMap (fun j =>
      if allMask mask i j ps then some (i, j) else none)) : x.1 = i := by
  simp only [List.mem_filterMap, List.mem_range, Option.ite_none_right_eq_some,
    Option.some.injEq] at h
  obtain ⟨j, _, _, rfl⟩ := h
  rfl

theorem validAnchors_nodup (mask : ℕ → ℕ → Bool) (rows cols ps : ℕ) :
    (validAnchors mask rows cols ps).Nodup := by
  refine List.nodup_flatMap.2 ⟨fun i _ => ?_, ?_⟩
  · refine List.Nodup.filterMap (fun a a' b hb hb' => ?_) (List.nodup_range _)
    rw [Option.mem_def] at hb hb'
    by_cases h : allMask mask i a ps = true
    · by_cases h' : allMask mask i a' ps = true
      · rw [if_pos h] at hb
        rw [if_pos h'] at hb'
        cases hb
        cases hb'
        rfl
      · rw [if_neg h'] at hb'
        cases hb'
    · rw [if_neg h] at hb
      cases hb
  · refine (List.pairwise_lt_range _).imp ?_
    intro a b hab
    intro x hxa hxb
    have h1 := fst_of_mem_validInner hxa
    have h2 := fst_of_mem_validInner hxb
    omega

theorem fst_of_mem_allInner {cols ps i : ℕ} {x : ℕ × ℕ}
    (h : x ∈ (List.range (cols - ps)).map (fun j => (i, j))) : x.1 = i := by
  simp only [List.mem_map, List.mem_range] at h
  obtain ⟨j, _, rfl⟩ := h
  rfl

theorem allAnchors_nodup (rows cols ps : ℕ) : (allAnchors rows cols ps).Nodup := by
  refine List.nodup_flatMap.2 ⟨fun i _ => ?_, ?_⟩
  · exact (List.nodup_range _).map (fun a a' h => by
      injection h)
  · refine (List.pairwise_lt_range _).imp ?_
    intro a b hab
    intro x hxa hxb
    have h1 := fst_of_mem_allInner hxa
    have h2 := fst_of_mem_allInner hxb
    omega

theorem sampledAnchors_nodup {anchors : List (ℕ × ℕ)} {k : ℕ} {sel : List ℕ}
    (ha : anchors.Nodup) (hs : sampleOk anchors.length k sel) :
    (sampledAnchors anchors sel).Nodup := by
  obtain ⟨-, hnd, hlt⟩ := hs
  refine hnd.map_on ?_
  intro x hx y hy hxy
  rw [List.getD_eq_getElem _ _ (hlt x hx), List.getD_eq_getElem _ _ (hlt y hy)] at hxy
  exact ha.getElem_inj_iff.1 hxy

theorem sampledAnchors_mem {anchors : List (ℕ × ℕ)} {k : ℕ} {sel : List ℕ}
    (hs : sampleOk anchors.length k sel) :
    ∀ a ∈ sampledAnchors anchors sel, a ∈ anchors := by
  obtain ⟨-, -, hlt⟩ := hs
  intro a hmem
  simp only [sampledAnchors, List.mem_map] at hmem
  obtain ⟨x, hx, rfl⟩ := hmem
  rw [List.getD_eq_getElem _ _ (hlt x hx)]
  exact List.getElem_mem _

/-- C2: every patch returned by `patch_extractor_with_mask` lies entirely
inside the validity mask: each sampled anchor `(i, j)` is a valid anchor,
the mask is true on the whole `ps × ps` footprint at `(i, j)`, and the
k-th returned patch equals the data crop `data[i:i+ps, j:j+ps]`. -/
theorem patch_extractor_with_mask_inside_mask {α : Type} (data : Cube α)
    (mask : ℕ → ℕ → Bool) (num_patches ps : ℕ) (sel : List ℕ)
    (res : List (List (List (List α))))
    (hres : patch_extractor_with_mask data mask num_patches ps sel = some res)
    (hs : sampleOk (validAnchors mask data.rows data.cols ps).length num_patches sel)
    (k : ℕ) (hk : k < num_patches) :
    ∃ i j, (i, j) ∈ validAnchors mask data.rows data.cols ps ∧
      (∀ a < ps, ∀ b < ps, mask (i + a) (j + b) = true) ∧
      res.getD k [] = crop data i j ps := by
  obtain ⟨hlen, hnd, hlt⟩ := hs
  by_cases hle : num_patches ≤ (validAnchors mask data.rows data.cols ps).length
  · simp only [patch_extractor_with_mask, if_pos hle, Option.some.injEq] at hres
    subst hres
    have hk1 : k < sel.length := hlen ▸ hk
    have hmemk : sel[k] ∈ sel := List.getElem_mem hk1
    have hm : sel[k] < (validAnchors mask data.rows data.cols ps).length := hlt _ hmemk
    set p := (validAnchors mask data.rows data.cols ps)[sel[k]] with hp
    have hpmem : p ∈ validAnchors mask data.rows data.cols ps := List.getElem_mem hm
    have hvalid := mem_validAnchors.1 hpmem
    refine ⟨p.1, p.2, hpmem, allMask_iff.1 hvalid.2.2, ?_⟩
    have hkr : k < ((sampledAnchors (validAnchors mask data.rows data.cols ps) sel).map
        (fun a => crop data a.1 a.2 ps)).length := by
      simpa [sampledAnchors] using hk1
    rw [List.getD_eq_getElem _ _ hkr]
    simp only [List.getElem_map, sampledAnchors]
    rw [List.getD_eq_getElem _ _ hm]
  · simp [patch_extractor_with_mask, if_neg hle] at hres

/-- Witness for C2 at a concrete input: a 3×3 cube, all-true mask,
patch size 1, one patch drawn at index 2 of the valid-anchor list. -/
theorem patch_extractor_with_mask_inside_mask_witness :
    sampleOk (validAnchors (fun _ _ => true) 3 3 1).length 1 [2] ∧
    (∃ i j, (i, j) ∈ validAnchors (fun _ _ => true) 3 3 1 ∧
      (∀ a < 1, ∀ b < 1, (fun _ _ => true : ℕ → ℕ → Bool) (i + a) (j + b) = true) ∧
      ([[[[10]]]] : List (List (List (List ℕ)))).getD 0 [] =
        crop (Cube.mk 3 3 1 (fun i j _ => 10 * i + j)) i j 1) :=
  ⟨⟨rfl, by decide, by decide⟩,
    patch_extractor_with_mask_inside_mask (Cube.mk 3 3 1 (fun i j _ => 10 * i + j))
      (fun _ _ => true) 1 1 [2] [[[[10]]]] rfl ⟨rfl, by decide, by decide⟩ 0 Nat.one_pos⟩

/-- C3: both patch extractors sample anchors without replacement (under
the contract of `random.sample` the sampled anchors are pairwise
distinct and exactly `num_patches` many), and when `num_patches`
exceeds the number of valid anchors the call fails with `none` instead
of truncating; in particular a fully-false 10×10 mask with
`num_patches = 1` (and the default `patch_size = 16`) fails. -/
theorem patch_extractors_sample_without_replacement :
    (∀ (mask : ℕ → ℕ → Bool) (rows cols num_patches ps : ℕ) (sel : List ℕ),
        sampleOk (validAnchors mask rows cols ps).length num_patches sel →
        (sampledAnchors (validAnchors mask rows cols ps) sel).Nodup ∧
        (sampledAnchors (validAnchors mask rows cols ps) sel).length = num_patches) ∧
    (∀ (rows cols num_patches ps : ℕ) (sel : List ℕ),
        sampleOk (allAnchors rows cols ps).length num_patches sel →
        (sampledAnchors (allAnchors rows cols ps) sel).Nodup ∧
        (sampledAnchors (allAnchors rows cols ps) sel).length = num_patches) ∧
    (∀ (α : Type) (data : Cube α) (mask : ℕ → ℕ → Bool) (num_patches ps : ℕ) (sel : List ℕ),
        (validAnchors mask data.rows data.cols ps).length < num_patches →
        patch_extractor_with_mask data mask num_patches ps sel = none) ∧
    (∀ (α : Type) (data : Cube α) (num_patches ps : ℕ) (sel : List ℕ),
        (allAnchors data.rows data.cols ps).length < num_patches →
        patch_extractor data num_patches ps sel = none) ∧
    patch_extractor_with_mask (Cube.mk 10 10 1 (fun _ _ _ => (0 : ℚ)))
      (fun _ _ => false) 1 16 [] = none := by
  refine ⟨?_, ?_, ?_, ?_, rfl⟩
  · intro mask rows cols num_patches ps sel hs
    exact ⟨sampledAnchors_nodup (validAnchors_nodup mask rows cols ps) hs,
      by simpa [sampledAnchors] using hs.1⟩
  · intro rows cols num_patches ps sel hs
    exact ⟨sampledAnchors_nodup (allAnchors_nodup rows cols ps) hs,
      by simpa [sampledAnchors] using hs.1⟩
  · intro α data mask num_patches ps sel h
    simp [patch_extractor_with_mask, Nat.not_le.2 h]
  · intro α data num_patches ps sel h
    simp [patch_extractor, Nat.not_le.2 h]

/-- Witness for C3 at a concrete input: an all-true 3×3 mask with patch
size 1 has 4 valid anchors; drawing the two distinct indices 0 and 3
yields two pairwise-distinct anchors. -/
theorem patch_extractors_sample_without_replacement_witness :
    sampleOk (validAnchors (fun _ _ => true) 3 3 1).length 2 [0, 3] ∧
    ((sampledAnchors (validAnchors (fun _ _ => true) 3 3 1) [0, 3]).Nodup ∧
      (sampledAnchors (validAnchors (fun _ _ => true) 3 3 1) [0, 3]).length = 2) :=
  ⟨⟨rfl, by decide, by decide⟩,
    patch_extractors_sample_without_replacement.1 (fun _ _ => true) 3 3 2 1 [0, 3]
      ⟨rfl, by decide, by decide⟩⟩

/-- C10: the validity scan of `patch_extractor_with_mask` covers only
row indices below `rows - ps` and column indices below `cols - ps`, so
the anchor row `rows - ps` and anchor column `cols - ps` are never
candidates and never sampled, even though their patch footprint fits in
the image (when `ps ≤ rows`, `(rows - ps) + ps = rows`) and even when
the mask is true everywhere on that footprint. -/
theorem patch_extractor_with_mask_excludes_last_feasible_anchor :
    (∀ (mask : ℕ → ℕ → Bool) (rows cols ps : ℕ) (p : ℕ × ℕ),
        p ∈ validAnchors mask rows cols ps → p.1 < rows - ps ∧ p.2 < cols - ps) ∧
    (∀ (mask : ℕ → ℕ → Bool) (rows cols ps j : ℕ),
        (rows - ps, j) ∉ validAnchors mask rows cols ps) ∧
    (∀ (mask : ℕ → ℕ → Bool) (rows cols ps i : ℕ),
        (i, cols - ps) ∉ validAnchors mask rows cols ps) ∧
    (∀ (rows cols ps j : ℕ), allMask (fun _ _ => true) (rows - ps) j ps = true ∧
        (rows - ps, j) ∉ validAnchors (fun _ _ => true) rows cols ps ∧
        (ps ≤ rows → rows - ps + ps = rows)) ∧
    (∀ (α : Type) (data : Cube α) (mask : ℕ → ℕ → Bool) (num_patches ps : ℕ)
        (sel : List ℕ) (res : List (List (List (List α)))),
        patch_extractor_with_mask data mask num_patches ps sel = some res →
        sampleOk (validAnchors mask data.rows data.cols ps).length num_patches sel →
        ∀ a ∈ sampledAnchors (validAnchors mask data.rows data.cols ps) sel,
          a.1 ≠ data.rows - ps ∧ a.2 ≠ data.cols - ps) := by
  have hcov : ∀ (mask : ℕ → ℕ → Bool) (rows cols ps : ℕ) (p : ℕ × ℕ),
      p ∈ validAnchors mask rows cols ps → p.1 < rows - ps ∧ p.2 < cols - ps := by
    intro mask rows cols ps p hp
    have := mem_validAnchors.1 hp
    exact ⟨this.1, this.2.1⟩
  refine ⟨hcov, ?_, ?_, ?_, ?_⟩
  · intro mask rows cols ps j hmem
    have := (hcov mask rows cols ps _ hmem).1
    omega
  · intro mask rows cols ps i hmem
    have := (hcov mask rows cols ps _ hmem).2
    omega
  · intro rows cols ps j
    refine ⟨allMask_iff.2 (fun _ _ _ _ => rfl), fun hmem => ?_, fun h => by omega⟩
    have := (hcov _ rows cols ps _ hmem).1
    omega
  · intro α data mask num_patches ps sel res _ hs a hmem
    have hp := hcov mask data.rows data.cols ps a (sampledAnchors_mem hs a hmem)
    omega

/-- Witness for C10 at a concrete input: a 3×3 cube with all-true mask
and patch size 1; the anchor drawn at index 2 is (1, 0), whose row and
column both differ from `rows - ps = 2` and `cols - ps = 2`. -/
theorem patch_extractor_with_mask_excludes_last_feasible_anchor_witness :
    patch_extractor_with_mask (Cube.mk 3 3 1 (fun i j _ => 10 * i + j))
        (fun _ _ => true) 1 1 [2] = some [[[[10]]]] ∧
    sampleOk (validAnchors (fun _ _ => true) 3 3 1).length 1 [2] ∧
    (1, 0) ∈ sampledAnchors (validAnchors (fun _ _ => true) 3 3 1) [2] ∧
    ((1, 0) : ℕ × ℕ).1 ≠ 3 - 1 ∧ ((1, 0) : ℕ × ℕ).2 ≠ 3 - 1 :=
  ⟨rfl, ⟨rfl, by decide, by decide⟩, by decide,
    patch_extractor_with_mask_excludes_last_feasible_anchor.2.2.2.2 ℕ
      (Cube.mk 3 3 1 (fun i j _ => 10 * i + j)) (fun _ _ => true) 1 1 [2] [[[[10]]]]
      rfl ⟨rfl, by decide, by decide⟩ (1, 0) (by decide)⟩

/-! ### Helper lemmas about `class_weights` -/

theorem mem_le_maxLabel {labels : List ℕ} {x : ℕ} (h : x ∈ labels) : x ≤ maxLabel labels := by
  induction labels with
  | nil => cases h
  | cons a t ih =>
    simp only [maxLabel, List.foldr_cons]
    rcases List.mem_cons.1 h with rfl | h'
    · exact le_max_left _ _
    · exact le_trans (ih h') (le_max_right _ _)

theorem bincount_getElem (labels : List ℕ) (n : ℕ) (i : ℕ)
    (h : i < (bincount labels n).length) : (bincount labels n)[i] = labels.count i := by
  simp [bincount]

theorem bincount_sum_pos {labels : List ℕ} (h : labels ≠ []) (n : ℕ) :
    0 < (bincount labels n).sum := by
  obtain ⟨a, t, rfl⟩ := List.exists_cons_of_ne_nil h
  have hmem : a ∈ a :: t := List.mem_cons_self a t
  have hlt : a < bincountLen (a :: t) n := by
    have hle := mem_le_maxLabel hmem
    have : maxLabel (a :: t) + 1 ≤ bincountLen (a :: t) n := by
      simp only [bincountLen, if_neg (List.cons_ne_nil a t)]
      exact le_max_right _ _
    omega
  have hcmem : (a :: t).count a ∈ bincount (a :: t) n := by
    simp only [bincount, List.mem_map, List.mem_range]
    exact ⟨a, hlt, rfl⟩
  have hpos : 0 < (a :: t).count a := List.count_pos_iff.2 hmem
  exact lt_of_lt_of_le hpos (List.le_sum_of_mem hcmem)

theorem count_le_bincount_sum (labels : List ℕ) (n : ℕ) (i : ℕ)
    (h : i < (bincount labels n).length) :
    (bincount labels n)[i] ≤ (bincount labels n).sum :=
  List.le_sum_of_mem (List.getElem_mem h)

theorem class_weights_eq_core {labels : List ℕ} {mu : ℝ} {numClasses : Option ℕ}
    {res : List FVal} (hres : class_weights labels mu numClasses = some res)
    (hne : labels ≠ []) : ∃ n, res = class_weights_core labels mu n := by
  cases numClasses with
  | some n =>
    simp only [class_weights, Option.some.injEq] at hres
    exact ⟨n, hres.symm⟩
  | none =>
    simp only [class_weights, if_neg hne, Option.some.injEq] at hres
    exact ⟨maxLabel labels + 1, hres.symm⟩

/-- C1 (amended): in `class_weights`, the division `total/count` of an
absent class is guarded (the infinite ratio is mapped to 0), but the
subsequent `log 0 = -inf` and the final clamp raise the weight to 1:
for a nonempty label vector and `mu > 0`, the returned weight of every
class index that appears zero times among the labels is 1, not 0. -/
theorem class_weights_absent_class_weight_one (labels : List ℕ) (mu : ℝ)
    (numClasses : Option ℕ) (res : List FVal)
    (hres : class_weights labels mu numClasses = some res)
    (hne : labels ≠ []) (hmu : 0 < mu) (i : ℕ) (hi : i < res.length)
    (habsent : labels.count i = 0) :
    res.getD i FVal.nan = FVal.finite 1 := by
  obtain ⟨n, rfl⟩ := class_weights_eq_core hres hne
  have hlen : i < (bincount labels n).length := by
    simpa [class_weights_core] using hi
  have htot : (bincount labels n).sum ≠ 0 := (bincount_sum_pos hne n).ne'
  rw [List.getD_eq_getElem _ _ hi]
  simp only [class_weights_core, List.getElem_map]
  rw [bincount_getElem _ _ _ hlen, habsent]
  simp [fdiv, guardInf, flog, smul, clampOne, htot, hmu]

/-- Witness for C1 (amended) at labels [0], mu = 1, numClasses = 2:
class 1 is absent and its returned weight is 1. -/
theorem class_weights_absent_class_weight_one_witness :
    ([0] : List ℕ) ≠ [] ∧ (0 : ℝ) < 1 ∧ ([0] : List ℕ).count 1 = 0 ∧
    (class_weights_core [0] 1 2).getD 1 FVal.nan = FVal.finite 1 :=
  ⟨by decide, one_pos, by decide,
    class_weights_absent_class_weight_one [0] 1 (some 2) _ rfl (by decide) one_pos 1
      (by simp [class_weights_core]; decide) (by decide)⟩

/-- Counterexample to C1 as stated: for labels [0], mu = 1,
numClasses = 2, class 1 appears zero times, yet its returned weight is
1 (the guarded ratio 0 passes through `log` to `-inf`, which the final
clamp raises to 1), not 0. -/
theorem class_weights_absent_class_counterexample :
    class_weights [0] 1 (some 2) = some [FVal.finite 1, FVal.finite 1] ∧
    FVal.finite 1 ≠ FVal.finite (0 : ℝ) := by
  have hb : bincount [0] 2 = [1, 0] := by decide
  constructor
  · show some (class_weights_core [0] 1 2) = _
    congr 1
    simp only [class_weights_core, hb]
    norm_num [fdiv, guardInf, flog, smul, clampOne, Real.log_one]
  · simp

/-- C5 (amended): every weight returned by `class_weights` for a
nonempty label vector with `mu ≠ 0` is at least 1 (any computed value
below 1, including `-inf` from an absent class, is clamped up to 1;
an absent class with `mu < 0` yields `+inf`); degenerate inputs
(`mu = 0` with an absent class, or an empty label vector) instead
produce NaN, which the clamp leaves in place.  On the concrete input
labels [0,0,0,1], mu = 1, numClasses = 2, the weight of class 1 is
`log 4 > 1` and the weight of class 0 is 1 (`log (4/3) < 1`, clamped). -/
theorem class_weights_at_least_one :
    (∀ (labels : List ℕ) (mu : ℝ) (numClasses : Option ℕ) (res : List FVal),
        class_weights labels mu numClasses = some res → labels ≠ [] → mu ≠ 0 →
        ∀ i, i < res.length → (res.getD i FVal.nan).geOne) ∧
    (class_weights [0, 0, 0, 1] 1 (some 2) =
        some [FVal.finite 1, FVal.finite (Real.log 4)] ∧ 1 < Real.log 4) := by
  have hlog4 : 1 < Real.log 4 := by
    rw [Real.lt_log_iff_exp_lt (by norm_num : (0 : ℝ) < 4)]
    exact lt_trans Real.exp_one_lt_d9 (by norm_num)
  constructor
  · intro labels mu numClasses res hres hne hmu i hi
    obtain ⟨n, rfl⟩ := class_weights_eq_core hres hne
    have hlen : i < (bincount labels n).length := by
      simpa [class_weights_core] using hi
    have htot : 0 < (bincount labels n).sum := bincount_sum_pos hne n
    rw [List.getD_eq_getElem _ _ hi]
    simp only [class_weights_core, List.getElem_map]
    rcases Nat.eq_zero_or_pos ((bincount labels n)[i]) with hzero | hpos
    · rw [hzero]
      rcases lt_or_gt_of_ne hmu with hneg | hposmu
      · simp [fdiv, guardInf, flog, smul, clampOne, htot.ne', hneg, not_lt_of_gt hneg,
          FVal.geOne]
      · simp [fdiv, guardInf, flog, smul, clampOne, htot.ne', hposmu, FVal.geOne]
    · have hle : (bincount labels n)[i] ≤ (bincount labels n).sum :=
        count_le_bincount_sum labels n i hlen
      set k := (bincount labels n)[i] with hk
      set t := (bincount labels n).sum with ht
      have hratio : 1 ≤ (t : ℝ) / (k : ℝ) := by
        rw [one_le_div (by exact_mod_cast hpos)]
        exact_mod_cast hle
      have hratio0 : ¬ ((t : ℝ) / (k : ℝ) = 0) := by
        intro h
        rw [h] at hratio
        norm_num at hratio
      have hrationeg : ¬ ((t : ℝ) / (k : ℝ) < 0) := not_lt_of_lt (lt_of_lt_of_le one_pos hratio)
      rw [fdiv, if_neg hpos.ne']
      simp only [guardInf, flog, if_neg hratio0, if_neg hrationeg, smul]
      by_cases hclamp : mu * Real.log ((t : ℝ) / (k : ℝ)) < 1
      · simp [clampOne, if_pos hclamp, FVal.geOne]
      · simp only [clampOne, if_neg hclamp]
        simpa [FVal.geOne] using not_lt.1 hclamp
  · constructor
    · have hb : bincount [0, 0, 0, 1] 2 = [3, 1] := by decide
      have hlog43 : Real.log (4 / 3) < 1 := by
        rw [Real.log_lt_iff_lt_exp (by norm_num : (0 : ℝ) < 4 / 3)]
        exact lt_trans (by norm_num) Real.exp_one_gt_d9
      show some (class_weights_core [0, 0, 0, 1] 1 2) = _
      congr 1
      simp only [class_weights_core, hb]
      norm_num [fdiv, guardInf, flog, smul, clampOne]
      constructor
      · intro h
        linarith
      · intro h
        linarith
    · exact hlog4

/-- Witness for C5 (amended) at labels [0,0,0,1], mu = 1,
numClasses = 2: the first returned weight is at least 1. -/
theorem class_weights_at_least_one_witness :
    ([0, 0, 0, 1] : List ℕ) ≠ [] ∧ (1 : ℝ) ≠ 0 ∧
    ((class_weights_core [0, 0, 0, 1] 1 2).getD 0 FVal.nan).geOne :=
  ⟨by decide, one_ne_zero,
    class_weights_at_least_one.1 [0, 0, 0, 1] 1 (some 2) _ rfl (by decide) one_ne_zero 0
      (by simp [class_weights_core]; decide)⟩

/-- Counterexample to C5 as stated: for labels [0], mu = 0,
numClasses = 2, the weight of the absent class 1 is NaN
(`0 * -inf`), which the clamp (`nan < 1` is false) leaves in place,
and NaN is not at least 1. -/
theorem class_weights_at_least_one_counterexample :
    class_weights [0] 0 (some 2) = some [FVal.finite 1, FVal.nan] ∧
    ¬ FVal.nan.geOne := by
  have hb : bincount [0] 2 = [1, 0] := by decide
  constructor
  · show some (class_weights_core [0] 0 2) = _
    congr 1
    simp only [class_weights_core, hb]
    norm_num [fdiv, guardInf, flog, smul, clampOne, Real.log_one]
  · simp [FVal.geOne]

/-! ### Claims about `band_resample_hsi_cube` -/

/-- C4: when `band_resample_hsi_cube` is called with a mask, the output
pixel vector is exactly the all-zero vector (length `len(bands2)`) at
every spatial position where the mask is false. -/
theorem band_resample_hsi_cube_zero_outside_mask (data : List (List (List ℚ)))
    (bands2 : List ℚ) (m : List (List ℚ)) (msk : List (List Bool)) (i j : ℕ)
    (hdm : maskDims msk data) (hi : i < data.length)
    (hj : j < (data.getD i []).length)
    (hfalse : (msk.getD i []).getD j true = false) :
    ((band_resample_hsi_cube data bands2 m (some msk)).getD i []).getD j [] =
      List.replicate bands2.length (0 : ℚ) := by
  obtain ⟨hml, hrow⟩ := hdm
  have hi2 : i < msk.length := by omega
  have hjd : j < (data[i]).length := by
    rw [List.getD_eq_getElem _ _ hi] at hj
    exact hj
  have hjm : j < (msk[i]).length := by
    have := hrow i hi
    rw [List.getD_eq_getElem _ _ hi2, List.getD_eq_getElem _ _ hi] at this
    omega
  have hiout : i < (band_resample_hsi_cube data bands2 m (some msk)).length := by
    simp only [band_resample_hsi_cube, List.length_zipWith]
    omega
  rw [List.getD_eq_getElem _ _ hiout]
  have hjout : j < ((band_resample_hsi_cube data bands2 m (some msk))[i]).length := by
    simp only [band_resample_hsi_cube, List.getElem_zipWith, List.length_zipWith]
    omega
  rw [List.getD_eq_getElem _ _ hjout]
  simp only [band_resample_hsi_cube, List.getElem_zipWith]
  rw [List.getD_eq_getElem _ _ hi2, List.getD_eq_getElem _ _ hjm] at hfalse
  simp [hfalse]

/-- Witness for C4 at a concrete input: a 1×2 cube with one band, mask
false at pixel (0, 1); the output there is the zero vector. -/
theorem band_resample_hsi_cube_zero_outside_mask_witness :
    maskDims [[true, false]] [[[1], [2]]] ∧ (0 : ℕ) < 1 ∧ (1 : ℕ) < 2 ∧
    (([[true, false]] : List (List Bool)).getD 0 []).getD 1 true = false ∧
    ((band_resample_hsi_cube [[[1], [2]]] [5] [[2]] (some [[true, false]])).getD 0 []).getD 1 [] =
      List.replicate ([(5 : ℚ)]).length (0 : ℚ) :=
  ⟨⟨rfl, by decide⟩, by decide, by decide, by decide,
    band_resample_hsi_cube_zero_outside_mask [[[1], [2]]] [5] [[2]] [[true, false]] 0 1
      ⟨rfl, by decide⟩ (by decide) (by decide) (by decide)⟩

/-- C8: for every cube and transform matrix with one row per target
band (the `BandResampler` contract), `band_resample_hsi_cube` returns a
cube with the same two spatial dimensions as the input and with
`len(bands2)` values per pixel, in both the masked and unmasked
branches. -/
theorem band_resample_hsi_cube_shape (data : List (List (List ℚ))) (bands2 : List ℚ)
    (m : List (List ℚ)) (mask : Option (List (List Bool)))
    (hm : m.length = bands2.length)
    (hdm : ∀ msk, mask = some msk → maskDims msk data) :
    (band_resample_hsi_cube data bands2 m mask).length = data.length ∧
    (∀ i, i < data.length →
      ((band_resample_hsi_cube data bands2 m mask).getD i []).length =
        (data.getD i []).length) ∧
    (∀ i j, i < data.length → j < (data.getD i []).length →
      (((band_resample_hsi_cube data bands2 m mask).getD i []).getD j []).length =
        bands2.length) := by
  cases mask with
  | none =>
    refine ⟨by simp [band_resample_hsi_cube], fun i hi => ?_, fun i j hi hj => ?_⟩
    · have hi2 : i < (band_resample_hsi_cube data bands2 m none).length := by
        simpa [band_resample_hsi_cube] using hi
      rw [List.getD_eq_getElem _ _ hi2, List.getD_eq_getElem _ _ hi]
      simp [band_resample_hsi_cube]
    · have hi2 : i < (band_resample_hsi_cube data bands2 m none).length := by
        simpa [band_resample_hsi_cube] using hi
      have hjd : j < (data[i]).length := by
        rw [List.getD_eq_getElem _ _ hi] at hj
        exact hj
      have hj2 : j < ((band_resample_hsi_cube data bands2 m none)[i]).length := by
        simpa [band_resample_hsi_cube] using hjd
      rw [List.getD_eq_getElem _ _ hi2, List.getD_eq_getElem _ _ hj2]
      simp [band_resample_hsi_cube, matVec, hm]
  | some msk =>
    obtain ⟨hml, hrow⟩ := hdm msk rfl
    have hlen : (band_resample_hsi_cube data bands2 m (some msk)).length = data.length := by
      simp only [band_resample_hsi_cube, List.length_zipWith]
      omega
    refine ⟨hlen, fun i hi => ?_, fun i j hi hj => ?_⟩
    · have hi2 : i < (band_resample_hsi_cube data bands2 m (some msk)).length := by omega
      have hi3 : i < msk.length := by omega
      have hrl := hrow i hi
      rw [List.getD_eq_getElem _ _ hi2, List.getD_eq_getElem _ _ hi]
      rw [List.getD_eq_getElem _ _ hi3, List.getD_eq_getElem _ _ hi] at hrl
      simp only [band_resample_hsi_cube, List.getElem_zipWith, List.length_zipWith]
      omega
    · have hi2 : i < (band_resample_hsi_cube data bands2 m (some msk)).length := by omega
      have hi3 : i < msk.length := by omega
      have hrl := hrow i hi
      rw [List.getD_eq_getElem _ _ hi3, List.getD_eq_getElem _ _ hi] at hrl
      have hjd : j < (data[i]).length := by
        rw [List.getD_eq_getElem _ _ hi] at hj
        exact hj
      have hjm : j < (msk[i]).length := by omega
      have hj2 : j < ((band_resample_hsi_cube data bands2 m (some msk))[i]).length := by
        simp only [band_resample_hsi_cube, List.getElem_zipWith, List.length_zipWith]
        omega
      rw [List.getD_eq_getElem _ _ hi2, List.getD_eq_getElem _ _ hj2]
      simp only [band_resample_hsi_cube, List.getElem_zipWith]
      by_cases hb : (msk[i])[j] = true
      · simp [hb, matVec, hm]
      · rw [Bool.not_eq_true] at hb
        simp [hb]

/-- Witness for C8 at a concrete input: a 1×1 cube with two bands and a
2×2 identity-shaped matrix, no mask; the output keeps the spatial
dimensions and has `len(bands2) = 2` values per pixel. -/
theorem band_resample_hsi_cube_shape_witness :
    ([[1, 0], [0, 1]] : List (List ℚ)).length = ([(1 : ℚ), 2]).length ∧
    (band_resample_hsi_cube [[[1, 2]]] [1, 2] [[1, 0], [0, 1]] none).length = 1 ∧
    (((band_resample_hsi_cube [[[1, 2]]] [1, 2] [[1, 0], [0, 1]] none).getD 0 []).getD 0 []).length =
      ([(1 : ℚ), 2]).length :=
  ⟨rfl,
    (band_resample_hsi_cube_shape [[[1, 2]]] [1, 2] [[1, 0], [0, 1]] none rfl
      (fun msk h => nomatch h)).1,
    (band_resample_hsi_cube_shape [[[1, 2]]] [1, 2] [[1, 0], [0, 1]] none rfl
      (fun msk h => nomatch h)).2.2 0 0 (by decide) (by decide)⟩

/-! ### Claim about `read_hyperion_HSI_data` -/

/-- C7: the assembled Hyperion cube has exactly 198 bands; band `i` is
the sorted source file at index `calIdx[i]` (7 + i for the first 50
bands, 26 + i = 76 + (i - 50) for the remaining 148), divided by 40 on
the first contiguous block of 50 bands and by 80 on the remaining 148
bands. -/
theorem read_hyperion_HSI_data_structure (files : List (ℕ → ℕ → ℚ)) (i r c : ℕ)
    (hi : i < 198) :
    (read_hyperion_HSI_data files).length = 198 ∧
    calIdx.length = 198 ∧
    calIdx.getD i 0 = (if i < 50 then 7 + i else 26 + i) ∧
    (read_hyperion_HSI_data files).getD i (fun _ _ => 0) r c =
      files.getD (calIdx.getD i 0) (fun _ _ => 0) r c / (if i < 50 then 40 else 80) := by
  have hlen : (read_hyperion_HSI_data files).length = 198 := by
    simp [read_hyperion_HSI_data]
  have hcallen : calIdx.length = 198 := by
    simp [calIdx]
  have hcal : calIdx.getD i 0 = (if i < 50 then 7 + i else 26 + i) := by
    have hic : i < calIdx.length := by omega
    rw [List.getD_eq_getElem _ _ hic]
    show (List.range' 7 50 ++ List.range' 76 148)[i] = _
    by_cases h50 : i < 50
    · rw [if_pos h50]
      have hl : i < (List.range' 7 50).length := by simpa using h50
      rw [List.getElem_append_left hl]
      simp
    · rw [if_neg h50]
      have hge : (List.range' 7 50).length ≤ i := by simpa using not_lt.1 h50
      rw [List.getElem_append_right hge]
      simp only [List.getElem_range', List.length_range']
      omega
  refine ⟨hlen, hcallen, hcal, ?_⟩
  have hi2 : i < (read_hyperion_HSI_data files).length := by omega
  rw [List.getD_eq_getElem _ _ hi2]
  simp [read_hyperion_HSI_data]

/-- Witness for C7: 224 numbered source images; the cube has 198 bands
and band 0 at pixel (0, 0) is image 7 scaled by 1/40. -/
theorem read_hyperion_HSI_data_structure_witness :
    (0 : ℕ) < 198 ∧
    (read_hyperion_HSI_data ((List.range 224).map (fun k _ _ => (k : ℚ)))).length = 198 ∧
    (read_hyperion_HSI_data ((List.range 224).map (fun k _ _ => (k : ℚ)))).getD 0
        (fun _ _ => 0) 0 0 =
      ((List.range 224).map (fun k _ _ => (k : ℚ))).getD (calIdx.getD 0 0)
        (fun _ _ => 0) 0 0 / (if (0 : ℕ) < 50 then 40 else 80) :=
  ⟨by decide,
    (read_hyperion_HSI_data_structure ((List.range 224).map (fun k _ _ => (k : ℚ)))
      0 0 0 (by decide)).1,
    (read_hyperion_HSI_data_structure ((List.range 224).map (fun k _ _ => (k : ℚ)))
      0 0 0 (by decide)).2.2.2⟩

/-! ### Helper lemmas about the stratified splitter -/

theorem count_selectLabels (y : List ℕ) (i c : ℕ) :
    (selectLabels y i).count c = if c = i then y.count c else 0 := by
  by_cases h : c = i
  · subst h
    rw [if_pos rfl]
    exact List.count_filter (by simp)
  · rw [if_neg h]
    refine List.count_eq_zero.2 ?_
    intro hmem
    have hp := List.of_mem_filter hmem
    simp only [beq_iff_eq] at hp
    exact h hp

theorem mem_selectLabels {y : List ℕ} {i x : ℕ} (h : x ∈ selectLabels y i) : x = i := by
  have hp := List.of_mem_filter h
  simpa using hp

theorem sum_map_range_ite (n c v : ℕ) :
    ((List.range n).map (fun i => if c = i then v else 0)).sum = if c < n then v else 0 := by
  induction n with
  | zero => simp
  | succ k ih =>
    rw [List.range_succ, List.map_append, List.sum_append, ih]
    by_cases h : c = k
    · subst h
      simp [Nat.lt_succ_iff]
    · by_cases h2 : c < k
      · simp [h2, h, Nat.lt_succ_of_lt h2]
      · have h3 : ¬ c < k + 1 := by omega
        simp [h2, h, h3]

theorem sum_map_add_nat (l : List ℕ) (f g : ℕ → ℕ) :
    (l.map (fun x => f x + g x)).sum = (l.map f).sum + (l.map g).sum := by
  induction l with
  | nil => simp
  | cons a t ih =>
    simp only [List.map_cons, List.sum_cons, ih]
    omega

theorem count_eq_zero_of_ge_bincountLen {y : List ℕ} {c : ℕ} (h : bincountLen y 0 ≤ c) :
    y.count c = 0 := by
  refine List.count_eq_zero.2 (fun hmem => ?_)
  have h1 := mem_le_maxLabel hmem
  have h2 : y ≠ [] := List.ne_nil_of_mem hmem
  simp only [bincountLen, if_neg h2] at h
  omega

/-- C6: the stratified splitter conserves per-class label counts (for
every class `c`, the train and test counts of `c` sum to the input
count of `c`) and returns samples grouped by class: the train labels
are the concatenation, in class order, of per-class blocks whose
elements all equal their class index (and likewise for test labels). -/
theorem train_test_split_per_class_conserves_counts {α : Type}
    (X : List α) (y : List ℕ) (sf : SplitFn α) (hsf : splitSpec sf) (c : ℕ) :
    ((train_test_split_per_class X y sf).2.2.1.count c +
        (train_test_split_per_class X y sf).2.2.2.count c = y.count c) ∧
    (∀ i, ∀ x ∈ (sf (selectRows X y i) (selectLabels y i)).2.2.1, x = i) ∧
    (∀ i, ∀ x ∈ (sf (selectRows X y i) (selectLabels y i)).2.2.2, x = i) ∧
    (train_test_split_per_class X y sf).2.2.1 =
      ((List.range (bincountLen y 0)).map
        (fun i => (sf (selectRows X y i) (selectLabels y i)).2.2.1)).flatten := by
  have hperm : ∀ i, ((sf (selectRows X y i) (selectLabels y i)).2.2.1 ++
      (sf (selectRows X y i) (selectLabels y i)).2.2.2).Perm (selectLabels y i) :=
    fun i => (hsf (selectRows X y i) (selectLabels y i)).1
  have hgroup : ∀ i, ∀ x ∈ (sf (selectRows X y i) (selectLabels y i)).2.2.1, x = i := by
    intro i x hx
    exact mem_selectLabels ((hperm i).mem_iff.1 (List.mem_append_left _ hx))
  have hgroup2 : ∀ i, ∀ x ∈ (sf (selectRows X y i) (selectLabels y i)).2.2.2, x = i := by
    intro i x hx
    exact mem_selectLabels ((hperm i).mem_iff.1 (List.mem_append_right _ hx))
  refine ⟨?_, hgroup, hgroup2, rfl⟩
  have hcount : ∀ i, (sf (selectRows X y i) (selectLabels y i)).2.2.1.count c +
      (sf (selectRows X y i) (selectLabels y i)).2.2.2.count c =
      if c = i then y.count c else 0 := by
    intro i
    rw [← List.count_append, (hperm i).count_eq, count_selectLabels]
  show (((List.range (bincountLen y 0)).map
      (fun i => (sf (selectRows X y i) (selectLabels y i)).2.2.1)).flatten.count c +
    ((List.range (bincountLen y 0)).map
      (fun i => (sf (selectRows X y i) (selectLabels y i)).2.2.2)).flatten.count c = y.count c)
  rw [List.count_flatten, List.count_flatten, List.map_map, List.map_map,
    ← sum_map_add_nat]
  simp only [Function.comp]
  rw [List.map_congr_left (fun i _ => hcount i), sum_map_range_ite]
  by_cases hc : c < bincountLen y 0
  · rw [if_pos hc]
  · rw [if_neg hc]
    exact (count_eq_zero_of_ge_bincountLen (not_lt.1 hc)).symm

/-- Witness for C6 at a concrete input: labels [0, 1, 0] with the
everything-to-train splitter; class 0's train and test counts sum to
its input count 2. -/
theorem train_test_split_per_class_conserves_counts_witness :
    splitSpec (fun (Xc : List ℕ) (yc : List ℕ) => (Xc, ([] : List ℕ), yc, ([] : List ℕ))) ∧
    ((train_test_split_per_class [5, 6, 7] [0, 1, 0]
        (fun Xc yc => (Xc, [], yc, []))).2.2.1.count 0 +
      (train_test_split_per_class [5, 6, 7] [0, 1, 0]
        (fun Xc yc => (Xc, [], yc, []))).2.2.2.count 0 = ([0, 1, 0] : List ℕ).count 0) :=
  ⟨fun Xc yc => ⟨by simp, by simp⟩,
    (train_test_split_per_class_conserves_counts [5, 6, 7] [0, 1, 0]
      (fun Xc yc => (Xc, [], yc, [])) (fun Xc yc => ⟨by simp, by simp⟩) 0).1⟩

end EarthMapper
